import Mathlib

/-!
Verification of the statediff library (Go) against its specification.

The diff engine of src/diff.go works on values that have been JSON-marshaled
and parsed back into generic form (`map[string]any`, `[]any`, `float64`,
`string`, `bool`, nil).  `JVal` is that generic JSON tree; numbers are
modelled as integers (no claim depends on float behaviour).  Go maps are
modelled as association lists; the code sorts keys before iterating, so the
unordered nature of Go maps is not observable in any modelled output.
-/

inductive JVal where
  | null
  | bool (b : Bool)
  | num (n : Int)
  | str (s : String)
  | arr (elems : List JVal)
  | obj (fields : List (String × JVal))

/- `reflect.DeepEqual` on parsed JSON trees is structural equality
(`jeq`, with `jeqArr` and `jeqObj` for the two container kinds). -/
mutual

def jeq : JVal → JVal → Bool
  | .null, .null => true
  | .bool a, .bool b => a == b
  | .num a, .num b => a == b
  | .str a, .str b => a == b
  | .arr xs, .arr ys => jeqArr xs ys
  | .obj xs, .obj ys => jeqObj xs ys
  | _, _ => false

def jeqArr : List JVal → List JVal → Bool
  | [], [] => true
  | x :: xs, y :: ys => jeq x y && jeqArr xs ys
  | _, _ => false

def jeqObj : List (String × JVal) → List (String × JVal) → Bool
  | [], [] => true
  | (k, v) :: xs, (k', v') :: ys => k == k' && jeq v v' && jeqObj xs ys
  | _, _ => false

end

/-- `reflect.TypeOf` discriminates the six runtime kinds a parsed JSON value
can have (nil, bool, float64, string, []any, map[string]any). -/
def kindOf : JVal → Nat
  | .null => 0
  | .bool _ => 1
  | .num _ => 2
  | .str _ => 3
  | .arr _ => 4
  | .obj _ => 5

/-- Byte/codepoint order on strings; `sort.Strings` sorts by byte order,
which on UTF-8 agrees with codepoint order. -/
def chLe : List Char → List Char → Bool
  | [], _ => true
  | _ :: _, [] => false
  | a :: as, b :: bs =>
    if a.toNat < b.toNat then true
    else if b.toNat < a.toNat then false
    else chLe as bs

def strLe (a b : String) : Bool := chLe a.data b.data

/-- The order used by `sort.Strings`, as a proposition. -/
def sLe (a b : String) : Prop := strLe a b = true

instance : DecidableRel sLe := fun a b => inferInstanceAs (Decidable (strLe a b = true))

/-- `sort.Strings`: sort in ascending byte order. -/
def sortStr (l : List String) : List String := l.insertionSort sLe

/-- Descending order on integers, as used by
`sort.Sort(sort.Reverse(sort.IntSlice(...)))`. -/
def natGe (a b : Nat) : Prop := b ≤ a

instance : DecidableRel natGe := fun a b => inferInstanceAs (Decidable (b ≤ a))

def sortNatDesc (l : List Nat) : List Nat := l.insertionSort natGe

/-- Go map access `m[k]` (for JSON-object association lists and index maps). -/
def lookupA {β : Type} : List (String × β) → String → Option β
  | [], _ => none
  | (k, v) :: rest, key => if k = key then some v else lookupA rest key

/-- Go map access with the zero value (`nil`, parsed as JSON null) when
the key is absent; the code only indexes with keys that are present. -/
def lookupD (l : List (String × JVal)) (k : String) : JVal :=
  (lookupA l k).getD .null

def keysOf (l : List (String × JVal)) : List String := l.map Prod.fst

/-- Go slice indexing `l[i]`; the code only indexes in bounds. -/
def getJ (l : List JVal) (i : Nat) : JVal := (l.get? i).getD .null

/-- RFC 6901 escaping of one byte, from `escapePtr` in src/diff.go. -/
def escapePtrChar (c : Char) : String :=
  if c = '~' then "~0"
  else if c = '/' then "~1"
  else String.singleton c

/-- `escapePtr`: escape `~` to `~0` and `/` to `~1` (src/diff.go). -/
def escapePtr (s : String) : String :=
  s.data.foldl (fun acc c => acc ++ escapePtrChar c) ""

/-- One JSON Patch operation (struct `Op` in src/diff.go).  `value` is
`none` where the Go field holds nil and is omitted by `omitempty`. -/
structure Op where
  op : String
  path : String
  value : Option JVal

def mkAdd (path : String) (v : JVal) : Op := ⟨"add", path, some v⟩

def mkRemove (path : String) : Op := ⟨"remove", path, none⟩

def mkReplace (path : String) (v : JVal) : Op := ⟨"replace", path, some v⟩

inductive ArrayStrategy where
  | replace
  | byIndex
  | byKey

structure ArrayConfig where
  strategy : ArrayStrategy
  keyField : String

/- `jSprint` is `fmt.Sprint` of a parsed JSON value, used to stringify
key-field values in `diffArraysByKey`.  Exact on the primitive values keys
are made of; composite values are rendered in Go's `[a b]` / `map[k:v]`
style except that map entries keep insertion order rather than sorting. -/
mutual

def jSprint : JVal → String
  | .null => "<nil>"
  | .bool b => if b then "true" else "false"
  | .num n => toString n
  | .str s => s
  | .arr xs => "[" ++ jSprintArr xs ++ "]"
  | .obj fs => "map[" ++ jSprintObj fs ++ "]"

def jSprintArr : List JVal → String
  | [] => ""
  | [x] => jSprint x
  | x :: xs => jSprint x ++ " " ++ jSprintArr xs

def jSprintObj : List (String × JVal) → String
  | [] => ""
  | [(k, v)] => k ++ ":" ++ jSprint v
  | (k, v) :: fs => k ++ ":" ++ jSprint v ++ " " ++ jSprintObj fs

end

/-- `getKey` closure in `diffArraysByKey`: the stringified key-field value
of an element, when the element is an object that has the key field. -/
def getKeyF (kf : String) (v : JVal) : Option String :=
  match v with
  | .obj fields =>
    match lookupA fields kf with
    | some kv => some (jSprint kv)
    | none => none
  | _ => none

/-- Go map store `m[k] = i`: replace the binding if the key is present,
append it otherwise. -/
def putIdx : List (String × Nat) → String → Nat → List (String × Nat)
  | [], k, i => [(k, i)]
  | (k', j) :: rest, k, i =>
    if k' = k then (k', i) :: rest else (k', j) :: putIdx rest k i

/-- The `oldIdx`/`newIdx` construction of `diffArraysByKey`: walk the slice,
recording the index of each keyed element (a later duplicate key wins, as
with a Go map store). -/
def buildIdxGo (kf : String) : Nat → List JVal → List (String × Nat) → List (String × Nat)
  | _, [], m => m
  | i, v :: vs, m =>
    buildIdxGo kf (i + 1) vs
      (match getKeyF kf v with
       | some k => putIdx m k i
       | none => m)

def buildIdx (kf : String) (l : List JVal) : List (String × Nat) :=
  buildIdxGo kf 0 l []

/-- `removedIndices` of `diffArraysByKey`: the old indices of keys absent
from the new slice, sorted descending. -/
def removedIdx (kf : String) (old new : List JVal) : List Nat :=
  sortNatDesc
    (((buildIdx kf old).filter (fun p => (lookupA (buildIdx kf new) p.1).isNone)).map Prod.snd)

/-- Index-value enumeration of a slice (`for i, v := range l`). -/
def enumFrom {α : Type} (i : Nat) : List α → List (Nat × α)
  | [] => []
  | x :: xs => (i, x) :: enumFrom (i + 1) xs

def enumL {α : Type} (l : List α) : List (Nat × α) := enumFrom 0 l

/-- The `add` phase of `diffMaps`: keys of the new object missing from the
old one, in the given (sorted) order. -/
def mapsAdds (path : String) (old new : List (String × JVal)) (ks : List String) : List Op :=
  (ks.filter (fun k => (lookupA old k).isNone)).map
    (fun k => mkAdd (path ++ "/" ++ escapePtr k) (lookupD new k))

/- Size bounds used by the termination argument of the diff engine. -/

theorem lookupA_some_sizeOf {l : List (String × JVal)} {k : String} {v : JVal}
    (h : lookupA l k = some v) : sizeOf v < sizeOf l := by
  induction l with
  | nil => simp [lookupA] at h
  | cons p rest ih =>
    obtain ⟨k', v'⟩ := p
    simp only [lookupA] at h
    split at h
    · cases h; simp; omega
    · have := ih h; simp; omega

theorem lookupD_sizeOf_le (l : List (String × JVal)) (k : String) :
    sizeOf (lookupD l k) ≤ sizeOf l := by
  unfold lookupD
  cases h : lookupA l k with
  | none =>
    simp only [Option.getD]
    cases l with
    | nil => simp
    | cons p rest => simp; omega
  | some v =>
    have := lookupA_some_sizeOf h
    simp only [Option.getD]
    omega

theorem get?_some_sizeOf {l : List JVal} {i : Nat} {v : JVal}
    (h : l.get? i = some v) : sizeOf v < sizeOf l := by
  induction l generalizing i with
  | nil => simp at h
  | cons a rest ih =>
    cases i with
    | zero =>
      simp at h
      subst h; simp; omega
    | succ n =>
      simp at h
      have := ih (i := n) (by simpa using h)
      simp; omega

theorem getJ_sizeOf_le (l : List JVal) (i : Nat) : sizeOf (getJ l i) ≤ sizeOf l := by
  unfold getJ
  cases h : l.get? i with
  | none =>
    simp only [Option.getD]
    cases l with
    | nil => simp
    | cons a rest => simp; omega
  | some v =>
    have := get?_some_sizeOf h
    simp only [Option.getD]
    omega

/-!
The diff engine of src/diff.go.  `diffValues`, `diffMaps`, `diffArrays`,
`diffArraysByIndex` and `diffArraysByKey` are direct transcriptions; the
`for` loops that append to `ops` become the recursive helpers `mapsRC`
(removed-and-changed phase of `diffMaps`), `byIndexGo` and `byKeyGo`.
-/

mutual

def diffValues (path : String) (old new : JVal) (cfg : ArrayConfig) : List Op :=
  if jeq old new = true then []
  else if kindOf old ≠ kindOf new then [mkReplace path new]
  else match old, new with
    | .obj o, .obj n => diffMaps path o n cfg
    | .arr o, .arr n => diffArrays path o n cfg
    | _, _ => [mkReplace path new]
termination_by (sizeOf old + sizeOf new, 9, 0)

def diffMaps (path : String) (old new : List (String × JVal)) (cfg : ArrayConfig) : List Op :=
  mapsRC path old new cfg (sortStr (keysOf old))
    ++ mapsAdds path old new (sortStr (keysOf new))
termination_by (sizeOf old + sizeOf new, 5, 0)

def mapsRC (path : String) (old new : List (String × JVal)) (cfg : ArrayConfig) :
    List String → List Op
  | [] => []
  | k :: ks =>
    (match h : lookupA new k with
     | none => [mkRemove (path ++ "/" ++ escapePtr k)]
     | some nv => diffValues (path ++ "/" ++ escapePtr k) (lookupD old k) nv cfg)
    ++ mapsRC path old new cfg ks
termination_by ks => (sizeOf old + sizeOf new, 4, ks.length)
decreasing_by
all_goals
  first
  | decreasing_tactic
  | (simp_wf
     apply Prod.Lex.left
     have h1 := lookupD_sizeOf_le old k
     have h2 := lookupA_some_sizeOf h
     omega)

def diffArrays (path : String) (old new : List JVal) (cfg : ArrayConfig) : List Op :=
  match cfg.strategy with
  | .byIndex => diffArraysByIndex path old new cfg
  | .byKey => diffArraysByKey path old new cfg
  | .replace =>
    if jeqArr old new = true then [] else [mkReplace path (.arr new)]
termination_by (sizeOf old + sizeOf new, 5, 0)

def diffArraysByIndex (path : String) (old new : List JVal) (cfg : ArrayConfig) : List Op :=
  byIndexGo path cfg 0 old new
    ++ (List.range' (min old.length new.length)
          (old.length - min old.length new.length)).reverse.map
        (fun i => mkRemove (path ++ "/" ++ toString i))
    ++ (new.drop (min old.length new.length)).map (fun v => mkAdd (path ++ "/-") v)
termination_by (sizeOf old + sizeOf new, 4, 0)

def byIndexGo (path : String) (cfg : ArrayConfig) (i : Nat) : List JVal → List JVal → List Op
  | a :: as, b :: bs =>
    diffValues (path ++ "/" ++ toString i) a b cfg ++ byIndexGo path cfg (i + 1) as bs
  | _, _ => []
termination_by as bs => (sizeOf as + sizeOf bs, 3, 0)

def diffArraysByKey (path : String) (old new : List JVal) (cfg : ArrayConfig) : List Op :=
  if cfg.keyField = "" then [mkReplace path (.arr new)]
  else
    (removedIdx cfg.keyField old new).map (fun i => mkRemove (path ++ "/" ++ toString i))
      ++ byKeyGo path cfg old (buildIdx cfg.keyField old) 0 new
termination_by (sizeOf old + sizeOf new, 4, 0)

def byKeyGo (path : String) (cfg : ArrayConfig) (old : List JVal)
    (oldIdx : List (String × Nat)) (ni : Nat) : List JVal → List Op
  | [] => []
  | v :: vs =>
    (match getKeyF cfg.keyField v with
     | none => []
     | some k =>
       match lookupA oldIdx k with
       | none => [mkAdd (path ++ "/-") v]
       | some oi => diffValues (path ++ "/" ++ toString ni) (getJ old oi) v cfg)
    ++ byKeyGo path cfg old oldIdx (ni + 1) vs
termination_by vs => (sizeOf old + sizeOf vs, 3, 0)
decreasing_by
all_goals
  first
  | decreasing_tactic
  | (simp_wf
     apply Prod.Lex.left
     have hg := getJ_sizeOf_le old oi
     simp
     omega)

end

/-- `json.Unmarshal(data, &m)` for `m : map[string]any`: succeeds on an
object; also succeeds on JSON `null`, leaving the map nil (which iterates
and looks up like an empty map); fails on every other top-level kind. -/
def unmarshalMap : JVal → Option (List (String × JVal))
  | .obj fields => some fields
  | .null => some []
  | _ => none

/-- `calcDiff` of src/diff.go: marshal both values (the identity in this
model, whose values are already JSON trees), unmarshal each into a
string-keyed map, and diff the maps from the root path. -/
def calcDiff (old new : JVal) (cfg : ArrayConfig) : Except String (List Op) :=
  match unmarshalMap old with
  | none => .error "unmarshal old state"
  | some o =>
    match unmarshalMap new with
    | none => .error "unmarshal new state"
    | some n => .ok (diffMaps "" o n cfg)

/-!
The state container of src/state.go, over an arbitrary state type `T`.

The clone hook is modelled as the identity: Lean values are immutable and
the spec's invariant is that the clone hook "must produce a value equal
under JSON serialization to its argument".  Effects are modelled by their
observable surface at the state container: an ID, an apply function, and
the outcome of the `e.(Expirable)` type assertion plus `Expired()` call
(`expirable` and `expired`; a pure snapshot, since the container makes its
decisions under one lock acquisition).
-/

structure EffectModel (T : Type) where
  id : String
  apply : T → T
  expirable : Bool
  expired : Bool

structure StateModel (T : Type) where
  current : T
  previous : T
  hasPrevi : Bool
  effects : List (EffectModel T)

/-- `withEffects`: clone the base (identity here) and apply every effect in
insertion order. -/
def withEffects {T : Type} (s : StateModel T) (t : T) : T :=
  s.effects.foldl (fun acc e => e.apply acc) t

/-- The `exp, ok := e.(Expirable); ok && exp.Expired()` check. -/
def isExpiredE {T : Type} (e : EffectModel T) : Bool :=
  e.expirable && e.expired

/-- `State.CleanupExpired` of src/state.go: return 0 when there are no
effects or none is expired; otherwise capture the previous-derived snapshot
only when `hasPrevi` is false, then rebuild the effects list without the
expired entries and return how many were dropped. -/
def cleanupExpired {T : Type} (s : StateModel T) : StateModel T × Nat :=
  if s.effects.length = 0 then (s, 0)
  else if !(s.effects.any isExpiredE) then (s, 0)
  else
    let cap : StateModel T :=
      if s.hasPrevi then s
      else { s with previous := withEffects s s.current, hasPrevi := true }
    ({ cap with effects := s.effects.filter (fun e => !(isExpiredE e)) },
     s.effects.countP isExpiredE)

/-- `State.AddEffect` of src/state.go: reject a duplicate ID leaving the
state untouched; otherwise capture the snapshot and append the effect. -/
def addEffect {T : Type} (s : StateModel T) (e : EffectModel T) :
    StateModel T × Option String :=
  if s.effects.any (fun x => x.id == e.id) then
    (s, some ("statediff: effect with ID \"" ++ e.id ++ "\" already exists"))
  else
    ({ s with
        previous := withEffects s s.current,
        hasPrevi := true,
        effects := s.effects ++ [e] }, none)

/-!
`TimedEffect` of src/effect.go.  Go's `time.Time` is modelled as an `Int`
with `0` playing the role of the zero `Time` (`IsZero`), and durations as
`Int` (`t2.Sub(t1)` is `t2 - t1`).  The nilable `TimeFunc` field is an
`Option Int`: `none` is a nil `TimeFunc`, and `some now` stands for a
function that currently returns `now`.
-/

structure TimedEffectModel (T A : Type) where
  id : String
  fn : T → A → T
  activator : A
  startsAt : Int
  expiresAt : Int
  timeFunc : Option Int

/-- `TimedEffect.Apply`: with no time function, apply unconditionally;
otherwise return the input unchanged when not yet started or expired. -/
def teApply {T A : Type} (e : TimedEffectModel T A) (s : T) (activator : A) : T :=
  match e.timeFunc with
  | none => e.fn s activator
  | some now =>
    if e.startsAt ≠ 0 ∧ now < e.startsAt then s
    else if e.expiresAt ≠ 0 ∧ now > e.expiresAt then s
    else e.fn s activator

/-- `TimedEffect.Active`. -/
def teActive {T A : Type} (e : TimedEffectModel T A) : Bool :=
  match e.timeFunc with
  | none => true
  | some now =>
    if e.startsAt ≠ 0 ∧ now < e.startsAt then false
    else if e.expiresAt ≠ 0 ∧ now > e.expiresAt then false
    else true

/-- `TimedEffect.Started`. -/
def teStarted {T A : Type} (e : TimedEffectModel T A) : Bool :=
  match e.timeFunc with
  | none => true
  | some now => if e.startsAt = 0 ∨ ¬ now < e.startsAt then true else false

/-- `TimedEffect.Expired`. -/
def teExpired {T A : Type} (e : TimedEffectModel T A) : Bool :=
  match e.timeFunc with
  | none => false
  | some now => if e.expiresAt ≠ 0 ∧ now > e.expiresAt then true else false

/-- `TimedEffect.Remaining`. -/
def teRemaining {T A : Type} (e : TimedEffectModel T A) : Int :=
  match e.timeFunc with
  | none => 0
  | some now =>
    if e.expiresAt = 0 then 0
    else if e.expiresAt - now > 0 then e.expiresAt - now else 0

/-- `TimedEffect.UntilStart`. -/
def teUntilStart {T A : Type} (e : TimedEffectModel T A) : Int :=
  match e.timeFunc with
  | none => 0
  | some now =>
    if e.startsAt = 0 then 0
    else if e.startsAt - now > 0 then e.startsAt - now else 0

/-!
The session manager of src/session.go, with the state type specialised to
`JVal` (session claims exercise the diff engine, which needs JSON-shaped
state).  A state effect is modelled by its apply function, a client by an
ID paired with its nullable projection.  The wire bytes of a patch are
modelled by `renderPatch`, a deterministic JSON rendering of `Patch.JSON`
(i.e. `json.Marshal` with map keys sorted; HTML-escaping of `<`, `>`, `&`
is reproduced, other sub-0x20 control characters beyond `\n`, `\r`, `\t`
are left unescaped in this model).
-/

def escChar (c : Char) : String :=
  if c = '"' then "\\\""
  else if c = '\\' then "\\\\"
  else if c = '\n' then "\\n"
  else if c = '\r' then "\\r"
  else if c = '\t' then "\\t"
  else if c = '<' then "\\u003c"
  else if c = '>' then "\\u003e"
  else if c = '&' then "\\u0026"
  else String.singleton c

def escJSON (s : String) : String :=
  s.data.foldl (fun acc c => acc ++ escChar c) ""

/-- `json.Marshal` sorts the keys of a `map[string]any`. -/
def sortPairs (l : List (String × JVal)) : List (String × JVal) :=
  l.insertionSort (fun p q => sLe p.1 q.1)

instance : DecidableRel (fun (p q : String × JVal) => sLe p.1 q.1) :=
  fun p q => inferInstanceAs (Decidable (strLe p.1 q.1 = true))

theorem sortPairs_sizeOf (l : List (String × JVal)) : sizeOf (sortPairs l) = sizeOf l :=
  (List.perm_insertionSort _ l).sizeOf_eq_sizeOf

mutual

def renderJ : JVal → String
  | .null => "null"
  | .bool b => if b then "true" else "false"
  | .num n => toString n
  | .str s => "\"" ++ escJSON s ++ "\""
  | .arr xs => "[" ++ renderArr xs ++ "]"
  | .obj fs => "\x7b" ++ renderObj (sortPairs fs) ++ "\x7d"
termination_by v => (sizeOf v, 1)
decreasing_by
all_goals
  first
  | decreasing_tactic
  | (simp_wf
     rw [sortPairs_sizeOf]
     omega)

def renderArr : List JVal → String
  | [] => ""
  | [x] => renderJ x
  | x :: xs => renderJ x ++ "," ++ renderArr xs
termination_by l => (sizeOf l, 0)

def renderObj : List (String × JVal) → String
  | [] => ""
  | [(k, v)] => "\"" ++ escJSON k ++ "\":" ++ renderJ v
  | (k, v) :: fs => "\"" ++ escJSON k ++ "\":" ++ renderJ v ++ "," ++ renderObj fs
termination_by l => (sizeOf l, 0)

end

/-- One operation in `json.Marshal` form: field order `op`, `path`,
`value`, with `value` omitted (`omitempty`) when the Go field is nil. -/
def renderOp (o : Op) : String :=
  "\x7b\"op\":\"" ++ escJSON o.op ++ "\",\"path\":\"" ++ escJSON o.path ++ "\""
    ++ (match o.value with
        | none => ""
        | some v => ",\"value\":" ++ renderJ v)
    ++ "\x7d"

/-- `Patch.JSON` of src/diff.go: the literal `[]` for an empty patch,
`json.Marshal` of the operation list otherwise. -/
def renderPatch (p : List Op) : String :=
  match p with
  | [] => "[]"
  | _ => "[" ++ String.intercalate "," (p.map renderOp) ++ "]"

/-- The state container specialised to JSON-shaped state, as the session
uses it: base and previous-derived values plus the effect chain (each
effect contributing its apply function) and the array configuration. -/
structure StateJ where
  current : JVal
  previous : JVal
  hasPrevi : Bool
  effects : List (JVal → JVal)
  cfg : ArrayConfig

def withEffectsJ (st : StateJ) : JVal :=
  st.effects.foldl (fun acc f => f acc) st.current

def applyProj (proj : Option (JVal → JVal)) (v : JVal) : JVal :=
  match proj with
  | none => v
  | some f => f v

/-- `State.Diff` of src/state.go: `(nil, nil)` when no snapshot is held
(the nil patch is the empty one here); otherwise diff the projected
snapshot against the projected derived state. -/
def stateDiffJ (st : StateJ) (proj : Option (JVal → JVal)) : Except String (List Op) :=
  if st.hasPrevi = false then .ok []
  else calcDiff (applyProj proj st.previous) (applyProj proj (withEffectsJ st)) st.cfg

/-- A session: the shared state and the client map (an association list of
client ID and nullable projection; IDs of connected clients are unique). -/
structure SessionModel (ID : Type) where
  state : StateJ
  clients : List (ID × Option (JVal → JVal))

/-- The per-client body of `Broadcast`'s loop: `nil` data when the diff
errors or is empty, the patch bytes otherwise.  For a nil projection this
is the value the `fullDiff` cache holds after first use; computing it
eagerly or lazily is indistinguishable for a pure function. -/
def fullDataJ (st : StateJ) : Option String :=
  match stateDiffJ st none with
  | .error _ => none
  | .ok p => if p.isEmpty then none else some (renderPatch p)

def clientData (st : StateJ) (proj : Option (JVal → JVal)) : Option String :=
  match proj with
  | none => fullDataJ st
  | some f =>
    match stateDiffJ st (some f) with
    | .error _ => none
    | .ok p => if p.isEmpty then none else some (renderPatch p)

/-- The fan-out loop of `Broadcast`: clients whose data is nil are left
out of the result map. -/
def broadcastGo {ID : Type} (st : StateJ) :
    List (ID × Option (JVal → JVal)) → List (ID × String)
  | [] => []
  | (cid, proj) :: rest =>
    match clientData st proj with
    | none => broadcastGo st rest
    | some d => (cid, d) :: broadcastGo st rest

/-- `Session.Broadcast` of src/session.go: nil when `HasChanges` is false,
otherwise the per-client patch-bytes map. -/
def broadcast {ID : Type} (s : SessionModel ID) : Option (List (ID × String)) :=
  if s.state.hasPrevi = false then none
  else some (broadcastGo s.state s.clients)

/-- Association-list lookup with an arbitrary comparable key type, for
reading entries of `Broadcast`'s result map. -/
def lookupAssoc {ID β : Type} [DecidableEq ID] : List (ID × β) → ID → Option β
  | [], _ => none
  | (k, v) :: rest, key => if k = key then some v else lookupAssoc rest key

/-- Look a client up in `Broadcast`'s result (nil result has no entries). -/
def lookupRes {ID : Type} [DecidableEq ID] (r : Option (List (ID × String))) (c : ID) :
    Option String :=
  match r with
  | none => none
  | some l => lookupAssoc l c

/-!
Infrastructure lemmas: order properties of the byte comparison, behaviour
of the sorts, reflexivity of the DeepEqual model, and association-list
facts used throughout the claim proofs.
-/

theorem chLe_total (as bs : List Char) : chLe as bs = true ∨ chLe bs as = true := by
  induction as generalizing bs with
  | nil => left; rfl
  | cons a as ih =>
    cases bs with
    | nil => right; rfl
    | cons b bs =>
      by_cases h1 : a.toNat < b.toNat
      · left; simp [chLe, h1]
      · by_cases h2 : b.toNat < a.toNat
        · right; simp [chLe, h2]
        · rcases ih bs with h | h
          · left; simp [chLe, h1, h2, h]
          · right; simp [chLe, h1, h2, h]

theorem chLe_trans {as bs cs : List Char} (h1 : chLe as bs = true) (h2 : chLe bs cs = true) :
    chLe as cs = true := by
  induction as generalizing bs cs with
  | nil => rfl
  | cons a as ih =>
    cases bs with
    | nil => simp [chLe] at h1
    | cons b bs =>
      cases cs with
      | nil => simp [chLe] at h2
      | cons c cs =>
        simp only [chLe] at h1 h2 ⊢
        rcases Nat.lt_trichotomy a.toNat b.toNat with hab | hab | hab
        · rcases Nat.lt_trichotomy b.toNat c.toNat with hbc | hbc | hbc
          · rw [if_pos (Nat.lt_trans hab hbc)]
          · rw [if_pos (hbc ▸ hab)]
          · rw [if_neg (by omega), if_pos hbc] at h2
            exact absurd h2 (by simp)
        · rw [if_neg (by omega), if_neg (by omega)] at h1
          rcases Nat.lt_trichotomy b.toNat c.toNat with hbc | hbc | hbc
          · rw [if_pos (by omega)]
          · rw [if_neg (by omega), if_neg (by omega)] at h2
            rw [if_neg (by omega), if_neg (by omega)]
            exact ih h1 h2
          · rw [if_neg (by omega), if_pos hbc] at h2
            exact absurd h2 (by simp)
        · rw [if_neg (by omega), if_pos hab] at h1
          exact absurd h1 (by simp)

instance : IsTotal String sLe :=
  ⟨fun a b => chLe_total a.data b.data⟩

instance : IsTrans String sLe :=
  ⟨fun _ _ _ h1 h2 => chLe_trans h1 h2⟩

instance : IsTotal Nat natGe :=
  ⟨fun a b => (Nat.le_total b a).imp id id⟩

instance : IsTrans Nat natGe :=
  ⟨fun _ _ _ h1 h2 => Nat.le_trans h2 h1⟩

theorem sortStr_sorted (l : List String) : (sortStr l).Pairwise sLe :=
  List.sorted_insertionSort sLe l

theorem sortStr_perm (l : List String) : (sortStr l).Perm l :=
  List.perm_insertionSort sLe l

theorem sortNatDesc_sorted (l : List Nat) : (sortNatDesc l).Pairwise natGe :=
  List.sorted_insertionSort natGe l

theorem sortNatDesc_perm (l : List Nat) : (sortNatDesc l).Perm l :=
  List.perm_insertionSort natGe l

mutual

theorem jeq_refl : (a : JVal) → jeq a a = true
  | .null => rfl
  | .bool b => by simp [jeq]
  | .num n => by simp [jeq]
  | .str s => by simp [jeq]
  | .arr xs => by rw [jeq]; exact jeqArr_refl xs
  | .obj fs => by rw [jeq]; exact jeqObj_refl fs

theorem jeqArr_refl : (l : List JVal) → jeqArr l l = true
  | [] => rfl
  | x :: xs => by rw [jeqArr, jeq_refl x, jeqArr_refl xs]; rfl

theorem jeqObj_refl : (l : List (String × JVal)) → jeqObj l l = true
  | [] => rfl
  | (k, v) :: xs => by rw [jeqObj, jeq_refl v, jeqObj_refl xs]; simp

end

theorem lookupA_eq_none_iff {β : Type} (l : List (String × β)) (k : String) :
    lookupA l k = none ↔ k ∉ l.map Prod.fst := by
  induction l with
  | nil => simp [lookupA]
  | cons p rest ih =>
    obtain ⟨k', v'⟩ := p
    by_cases he : k' = k
    · subst he
      simp [lookupA]
    · have hne : ¬ k = k' := fun h => he h.symm
      simp only [lookupA, if_neg he, List.map_cons, List.mem_cons]
      rw [ih]
      simp [hne]

theorem lookupA_isSome_of_mem_keys {β : Type} {l : List (String × β)} {k : String}
    (h : k ∈ l.map Prod.fst) : ∃ v, lookupA l k = some v := by
  cases hl : lookupA l k with
  | none => exact absurd h ((lookupA_eq_none_iff l k).mp hl)
  | some v => exact ⟨v, rfl⟩

/-- Diffing a value against itself yields no operations: the DeepEqual
short-circuit at the top of `diffValues`. -/
theorem diffValues_self (path : String) (v : JVal) (cfg : ArrayConfig) :
    diffValues path v v cfg = [] := by
  rw [diffValues.eq_def, if_pos (jeq_refl v)]

theorem mapsRC_nil (path : String) (old new : List (String × JVal)) (cfg : ArrayConfig) :
    mapsRC path old new cfg [] = [] := by
  rw [mapsRC]

theorem mapsRC_cons (path : String) (old new : List (String × JVal)) (cfg : ArrayConfig)
    (k : String) (ks : List String) :
    mapsRC path old new cfg (k :: ks) =
      (match lookupA new k with
       | none => [mkRemove (path ++ "/" ++ escapePtr k)]
       | some nv => diffValues (path ++ "/" ++ escapePtr k) (lookupD old k) nv cfg)
      ++ mapsRC path old new cfg ks := by
  rw [mapsRC]
  split <;> rename_i heq <;> simp [heq]

theorem mapsRC_self (path : String) (m : List (String × JVal)) (cfg : ArrayConfig)
    (ks : List String) (hks : ∀ k ∈ ks, k ∈ m.map Prod.fst) :
    mapsRC path m m cfg ks = [] := by
  induction ks with
  | nil => exact mapsRC_nil path m m cfg
  | cons k ks ih =>
    obtain ⟨v, hv⟩ := lookupA_isSome_of_mem_keys (hks k (by simp))
    have hd : lookupD m k = v := by simp [lookupD, hv]
    rw [mapsRC_cons]
    rw [ih (fun k' hk' => hks k' (by simp [hk']))]
    simp only [hv, hd]
    rw [diffValues_self]
    rfl

theorem mapsAdds_self (path : String) (m : List (String × JVal)) (ks : List String)
    (hks : ∀ k ∈ ks, k ∈ m.map Prod.fst) :
    mapsAdds path m m ks = [] := by
  unfold mapsAdds
  have : ks.filter (fun k => (lookupA m k).isNone) = [] := by
    rw [List.filter_eq_nil_iff]
    intro k hk
    obtain ⟨v, hv⟩ := lookupA_isSome_of_mem_keys (hks k hk)
    simp [hv]
  rw [this, List.map_nil]

/-- `diffMaps` of an object against itself is empty. -/
theorem diffMaps_self (path : String) (m : List (String × JVal)) (cfg : ArrayConfig) :
    diffMaps path m m cfg = [] := by
  have hmem : ∀ k ∈ sortStr (keysOf m), k ∈ m.map Prod.fst := by
    intro k hk
    exact (sortStr_perm (keysOf m)).mem_iff.mp hk
  rw [diffMaps, mapsRC_self path m cfg _ hmem, mapsAdds_self path m _ hmem]
  rfl

/-- The removed-and-changed loop of `diffMaps`, as a flat map over the
sorted key list. -/
theorem mapsRC_eq_flatMap (path : String) (old new : List (String × JVal))
    (cfg : ArrayConfig) (ks : List String) :
    mapsRC path old new cfg ks =
      ks.flatMap (fun k =>
        match lookupA new k with
        | none => [mkRemove (path ++ "/" ++ escapePtr k)]
        | some nv => diffValues (path ++ "/" ++ escapePtr k) (lookupD old k) nv cfg) := by
  induction ks with
  | nil => rw [mapsRC_nil]; rfl
  | cons k ks ih =>
    rw [mapsRC_cons, ih, List.flatMap_cons]

/-- The added-and-changed loop of `diffArraysByKey`, as a flat map over the
enumerated new slice. -/
theorem byKeyGo_eq_flatMap (path : String) (cfg : ArrayConfig) (old : List JVal)
    (oldIdx : List (String × Nat)) (ni : Nat) (l : List JVal) :
    byKeyGo path cfg old oldIdx ni l =
      (enumFrom ni l).flatMap (fun p =>
        match getKeyF cfg.keyField p.2 with
        | none => []
        | some k =>
          match lookupA oldIdx k with
          | none => [mkAdd (path ++ "/-") p.2]
          | some oi => diffValues (path ++ "/" ++ toString p.1) (getJ old oi) p.2 cfg) := by
  induction l generalizing ni with
  | nil => rw [byKeyGo]; rfl
  | cons v vs ih =>
    rw [byKeyGo, ih (ni + 1), enumFrom, List.flatMap_cons]

/-!
Facts about the key-to-index maps of `diffArraysByKey`: every recorded
index points at an element of the slice carrying that key, recorded keys
are unique, and a key is recorded exactly when some element carries it.
-/

theorem putIdx_mem {m : List (String × Nat)} {k : String} {i : Nat} {k' : String} {j : Nat}
    (h : (k', j) ∈ putIdx m k i) : (k', j) ∈ m ∨ (k' = k ∧ j = i) := by
  induction m with
  | nil =>
    simp [putIdx] at h
    right
    exact h
  | cons p rest ih =>
    obtain ⟨k0, j0⟩ := p
    simp only [putIdx] at h
    split at h
    · rename_i he
      subst he
      rcases List.mem_cons.mp h with h1 | h1
      · right
        obtain ⟨h2, h3⟩ := Prod.mk.injEq .. ▸ h1
        exact ⟨h2.symm ▸ rfl, h3⟩
      · left; exact List.mem_cons_of_mem _ h1
    · rcases List.mem_cons.mp h with h1 | h1
      · left; exact h1 ▸ List.mem_cons_self _ _
      · rcases ih h1 with h2 | h2
        · left; exact List.mem_cons_of_mem _ h2
        · right; exact h2

theorem mem_keys_putIdx (m : List (String × Nat)) (k : String) (i : Nat) (k' : String) :
    k' ∈ (putIdx m k i).map Prod.fst ↔ k' ∈ m.map Prod.fst ∨ k' = k := by
  induction m with
  | nil => simp [putIdx]
  | cons p rest ih =>
    obtain ⟨k0, j0⟩ := p
    simp only [putIdx]
    split
    · rename_i he
      subst he
      simp
      tauto
    · simp only [List.map_cons, List.mem_cons, ih]
      tauto

theorem putIdx_keys_nodup {m : List (String × Nat)} (hnd : (m.map Prod.fst).Nodup)
    (k : String) (i : Nat) : ((putIdx m k i).map Prod.fst).Nodup := by
  induction m with
  | nil => simp [putIdx]
  | cons p rest ih =>
    obtain ⟨k0, j0⟩ := p
    simp only [List.map_cons, List.nodup_cons] at hnd
    simp only [putIdx]
    split
    · rename_i he
      subst he
      simpa [List.nodup_cons] using hnd
    · rename_i he
      simp only [List.map_cons, List.nodup_cons, mem_keys_putIdx]
      refine ⟨?_, ih hnd.2⟩
      rintro (h1 | h1)
      · exact hnd.1 h1
      · exact he h1

theorem buildIdxGo_mem (kf : String) (vs : List JVal) :
    ∀ (i : Nat) (m : List (String × Nat)) (k : String) (j : Nat),
      (k, j) ∈ buildIdxGo kf i vs m →
      (k, j) ∈ m ∨ ∃ off v, vs.get? off = some v ∧ j = i + off ∧ getKeyF kf v = some k := by
  induction vs with
  | nil =>
    intro i m k j h
    rw [buildIdxGo] at h
    exact Or.inl h
  | cons v vs ih =>
    intro i m k j h
    rw [buildIdxGo] at h
    rcases ih (i + 1) _ k j h with h1 | h1
    · revert h1
      split
      · rename_i kv hkv
        intro h1
        rcases putIdx_mem h1 with h2 | h2
        · exact Or.inl h2
        · refine Or.inr ⟨0, v, by simp, by omega, ?_⟩
          rw [hkv, h2.1]
      · intro h1
        exact Or.inl h1
    · obtain ⟨off, v', hget, hj, hkey⟩ := h1
      exact Or.inr ⟨off + 1, v', by simpa using hget, by omega, hkey⟩

theorem mem_keys_buildIdxGo (kf : String) (vs : List JVal) :
    ∀ (i : Nat) (m : List (String × Nat)) (k : String),
      k ∈ (buildIdxGo kf i vs m).map Prod.fst ↔
        k ∈ m.map Prod.fst ∨ ∃ v ∈ vs, getKeyF kf v = some k := by
  induction vs with
  | nil =>
    intro i m k
    rw [buildIdxGo]
    simp
  | cons v vs ih =>
    intro i m k
    rw [buildIdxGo]
    rw [ih]
    constructor
    · rintro (h1 | h1)
      · revert h1
        split
        · rename_i kv hkv
          intro h1
          rcases (mem_keys_putIdx m _ i k).mp h1 with h2 | h2
          · exact Or.inl h2
          · exact Or.inr ⟨v, by simp, h2 ▸ hkv⟩
        · intro h1
          exact Or.inl h1
      · obtain ⟨v', hv', hkey⟩ := h1
        exact Or.inr ⟨v', by simp [hv'], hkey⟩
    · rintro (h1 | h1)
      · left
        split
        · exact (mem_keys_putIdx m _ i k).mpr (Or.inl h1)
        · exact h1
      · obtain ⟨v', hv', hkey⟩ := h1
        rcases List.mem_cons.mp hv' with h2 | h2
        · left
          subst h2
          split
          · rename_i kv hkv
            rw [hkv] at hkey
            exact (mem_keys_putIdx m _ i k).mpr (Or.inr (Option.some.inj hkey).symm)
          · rename_i hno
            rw [hno] at hkey
            cases hkey
        · exact Or.inr ⟨v', h2, hkey⟩

theorem buildIdxGo_keys_nodup (kf : String) (vs : List JVal) :
    ∀ (i : Nat) (m : List (String × Nat)), (m.map Prod.fst).Nodup →
      ((buildIdxGo kf i vs m).map Prod.fst).Nodup := by
  induction vs with
  | nil =>
    intro i m hm
    rw [buildIdxGo]
    exact hm
  | cons v vs ih =>
    intro i m hm
    rw [buildIdxGo]
    apply ih
    split
    · exact putIdx_keys_nodup hm _ _
    · exact hm

theorem buildIdx_sound {kf : String} {l : List JVal} {k : String} {j : Nat}
    (h : (k, j) ∈ buildIdx kf l) :
    j < l.length ∧ getKeyF kf (getJ l j) = some k := by
  rcases buildIdxGo_mem kf l 0 [] k j h with h1 | h1
  · cases h1
  · obtain ⟨off, v, hget, hj, hkey⟩ := h1
    subst hj
    have hlt : 0 + off < l.length := by
      rcases List.get?_eq_some.mp hget with ⟨hol, _⟩
      omega
    refine ⟨hlt, ?_⟩
    rw [getJ, show (0 + off) = off by omega, hget]
    exact hkey

theorem buildIdx_keys_nodup (kf : String) (l : List JVal) :
    ((buildIdx kf l).map Prod.fst).Nodup :=
  buildIdxGo_keys_nodup kf l 0 [] (by simp)

theorem mem_keys_buildIdx (kf : String) (l : List JVal) (k : String) :
    k ∈ (buildIdx kf l).map Prod.fst ↔ ∃ v ∈ l, getKeyF kf v = some k := by
  rw [buildIdx, mem_keys_buildIdxGo]
  simp

theorem lookupA_buildIdx_none_iff (kf : String) (l : List JVal) (k : String) :
    lookupA (buildIdx kf l) k = none ↔ ∀ v ∈ l, getKeyF kf v ≠ some k := by
  rw [lookupA_eq_none_iff, mem_keys_buildIdx]
  simp

theorem lookupA_some_mem {β : Type} {m : List (String × β)} {k : String} {v : β}
    (h : lookupA m k = some v) : (k, v) ∈ m := by
  induction m with
  | nil => simp [lookupA] at h
  | cons p rest ih =>
    obtain ⟨k0, v0⟩ := p
    simp only [lookupA] at h
    split at h
    · rename_i he
      subst he
      cases h
      exact List.mem_cons_self _ _
    · exact List.mem_cons_of_mem _ (ih h)

theorem mem_lookupA_of_nodup {β : Type} {m : List (String × β)} {k : String} {v : β}
    (hnd : (m.map Prod.fst).Nodup) (h : (k, v) ∈ m) : lookupA m k = some v := by
  induction m with
  | nil => cases h
  | cons p rest ih =>
    obtain ⟨k0, v0⟩ := p
    simp only [List.map_cons, List.nodup_cons] at hnd
    rcases List.mem_cons.mp h with h1 | h1
    · obtain ⟨hk, hv⟩ := Prod.mk.injEq .. ▸ h1
      subst hk
      subst hv
      simp [lookupA]
    · have hk0 : ¬ k0 = k := by
        intro he
        subst he
        exact hnd.1 (List.mem_map.mpr ⟨(k0, v), h1, rfl⟩)
      simp only [lookupA, if_neg hk0]
      exact ih hnd.2 h1

/-- Membership in `removedIndices`: exactly the recorded old indices of
keys that the new index map does not contain. -/
theorem mem_removedIdx_iff (kf : String) (old new : List JVal) (i : Nat) :
    i ∈ removedIdx kf old new ↔
      ∃ k, (k, i) ∈ buildIdx kf old ∧ lookupA (buildIdx kf new) k = none := by
  rw [removedIdx, (sortNatDesc_perm _).mem_iff, List.mem_map]
  constructor
  · rintro ⟨⟨k, j⟩, hmem, hj⟩
    obtain ⟨h1, h2⟩ := List.mem_filter.mp hmem
    refine ⟨k, ?_, ?_⟩
    · cases hj; exact h1
    · cases hj; simpa [Option.isNone_iff_eq_none] using h2
  · rintro ⟨k, hmem, hnone⟩
    exact ⟨(k, i), List.mem_filter.mpr ⟨hmem, by simp [hnone]⟩, rfl⟩

/-- The removed indices are pairwise strictly descending: descending by the
sort, strict because two distinct recorded keys cannot share an index. -/
theorem removedIdx_pairwise_gt (kf : String) (old new : List JVal) :
    (removedIdx kf old new).Pairwise (· > ·) := by
  set fl := (buildIdx kf old).filter
      (fun p => (lookupA (buildIdx kf new) p.1).isNone) with hfl
  have hsorted : (removedIdx kf old new).Pairwise natGe := sortNatDesc_sorted _
  have hsub : fl.Sublist (buildIdx kf old) := List.filter_sublist _
  have hnodup_fst : (fl.map Prod.fst).Nodup :=
    (hsub.map Prod.fst).nodup (buildIdx_keys_nodup kf old)
  have hpair_fst : fl.Pairwise (fun p q => p.1 ≠ q.1) := List.pairwise_map.mp hnodup_fst
  have hpair_snd : fl.Pairwise (fun p q => p.2 ≠ q.2) := by
    refine hpair_fst.imp_of_mem ?_
    intro p q hp hq hne heq
    have hps := buildIdx_sound (hsub.subset hp)
    have hqs := buildIdx_sound (hsub.subset hq)
    apply hne
    have := hps.2.symm.trans (heq ▸ hqs.2)
    exact Option.some.inj this
  have hnodup_snd : (fl.map Prod.snd).Nodup := List.pairwise_map.mpr hpair_snd
  have hnodup : (removedIdx kf old new).Nodup :=
    ((sortNatDesc_perm _).nodup_iff).mpr hnodup_snd
  refine (hsorted.and hnodup).imp ?_
  rintro a b ⟨hge, hne⟩
  exact Nat.lt_of_le_of_ne hge (fun he => hne (he ▸ rfl))

/-!
Lookup behaviour of the `Broadcast` fan-out loop.
-/

theorem broadcastGo_not_mem {ID : Type} [DecidableEq ID] (st : StateJ)
    (cs : List (ID × Option (JVal → JVal))) (c : ID) (h : c ∉ cs.map Prod.fst) :
    lookupAssoc (broadcastGo st cs) c = none := by
  induction cs with
  | nil => rfl
  | cons p rest ih =>
    obtain ⟨c0, p0⟩ := p
    simp only [List.map_cons, List.mem_cons] at h
    push_neg at h
    rw [broadcastGo]
    split
    · exact ih h.2
    · rw [lookupAssoc, if_neg (fun he => h.1 he.symm)]
      exact ih h.2

theorem broadcastGo_lookup {ID : Type} [DecidableEq ID] (st : StateJ)
    (cs : List (ID × Option (JVal → JVal))) (c : ID) (proj : Option (JVal → JVal))
    (hnd : (cs.map Prod.fst).Nodup) (hmem : (c, proj) ∈ cs) :
    lookupAssoc (broadcastGo st cs) c = clientData st proj := by
  induction cs with
  | nil => cases hmem
  | cons p rest ih =>
    obtain ⟨c0, p0⟩ := p
    simp only [List.map_cons, List.nodup_cons] at hnd
    rcases List.mem_cons.mp hmem with h1 | h1
    · obtain ⟨hc, hp⟩ := Prod.mk.injEq .. ▸ h1
      subst hc
      subst hp
      rw [broadcastGo]
      split
      · rename_i hdat
        rw [hdat, broadcastGo_not_mem st rest c hnd.1]
      · rename_i d hdat
        rw [hdat, lookupAssoc, if_pos rfl]
    · have hne : ¬ c0 = c := by
        intro he
        subst he
        exact hnd.1 (List.mem_map.mpr ⟨(c0, proj), h1, rfl⟩)
      rw [broadcastGo]
      split
      · exact ih hnd.2 h1
      · rw [lookupAssoc, if_neg hne]
        exact ih hnd.2 h1

/-!
Concrete inputs used by the witness theorems (the array examples are the
spec's literal end-to-end scenarios 2 and 3).
-/

def cfgDefault : ArrayConfig := ⟨.replace, ""⟩

def exCfgByKey : ArrayConfig := ⟨.byKey, "id"⟩

def exOldIds : List JVal :=
  [.obj [("id", .str "a")], .obj [("id", .str "b")], .obj [("id", .str "c")]]

def exNewIds : List JVal := [.obj [("id", .str "b")]]

def exOldItems : List JVal :=
  [.obj [("id", .str "a"), ("data", .num 1)],
   .obj [("id", .str "b"), ("data", .num 2)],
   .obj [("id", .str "c"), ("data", .num 3)]]

def exNewItems : List JVal :=
  [.obj [("id", .str "a"), ("data", .num 1)],
   .obj [("id", .str "c"), ("data", .num 999)]]

def exObjState : JVal := .obj [("name", .str "a"), ("value", .num 1)]

def exEffExpired : EffectModel Nat := ⟨"boost", fun n => n + 1, true, true⟩

def exEffLive : EffectModel Nat := ⟨"live", fun n => n * 2, true, false⟩

def exEffDup : EffectModel Nat := ⟨"boost", fun n => n + 5, false, false⟩

def exStateHeld : StateModel Nat := ⟨10, 5, true, [exEffExpired, exEffLive]⟩

def exStateFree : StateModel Nat := ⟨10, 5, false, [exEffExpired, exEffLive]⟩

def exTimed : TimedEffectModel Nat Unit := ⟨"timed", fun n _ => n + 7, (), 100, 200, none⟩

def exStateJGood : StateJ :=
  ⟨.obj [("x", .num 2)], .obj [("x", .num 1)], true, [], cfgDefault⟩

def exSessGood : SessionModel String := ⟨exStateJGood, [("a", none), ("b", none)]⟩

def exStateJBad : StateJ := ⟨.num 2, .num 1, true, [], cfgDefault⟩

def exSessBad : SessionModel String := ⟨exStateJBad, [("a", none), ("b", none)]⟩

def exPatchBytes : String := "[\x7b\"op\":\"replace\",\"path\":\"/x\",\"value\":2\x7d]"

/-!
The claims.
-/

/-- Claim C1: `CleanupExpired` never overwrites or clears a held
previous-derived snapshot, even when it removes expired effects; and when
no snapshot is held and at least one effect is expired, it captures the
snapshot (derived with the still-complete effect list) before the expired
effects are filtered out. -/
theorem cleanupExpired_preserves_snapshot {T : Type} (s : StateModel T) :
    (s.hasPrevi = true →
      (cleanupExpired s).1.previous = s.previous ∧ (cleanupExpired s).1.hasPrevi = true)
    ∧ (s.hasPrevi = false → (∃ e ∈ s.effects, isExpiredE e = true) →
      (cleanupExpired s).1.previous = withEffects s s.current
        ∧ (cleanupExpired s).1.hasPrevi = true
        ∧ (cleanupExpired s).1.effects = s.effects.filter (fun e => !(isExpiredE e))) := by
  constructor
  · intro hp
    unfold cleanupExpired
    by_cases h0 : s.effects.length = 0
    · simp [h0, hp]
    · by_cases h1 : s.effects.any isExpiredE
      · simp [h0, h1, hp]
      · simp [h0, h1, hp]
  · intro hp hex
    have h1 : s.effects.any isExpiredE = true :=
      List.any_eq_true.mpr (by obtain ⟨e, he, hie⟩ := hex; exact ⟨e, he, hie⟩)
    have h0 : ¬ s.effects.length = 0 := by
      obtain ⟨e, he, _⟩ := hex
      cases hl : s.effects with
      | nil => rw [hl] at he; cases he
      | cons a rest => simp
    unfold cleanupExpired
    simp [h0, h1, hp]

theorem cleanupExpired_preserves_snapshot_witness :
    ((cleanupExpired exStateHeld).1.previous = 5
      ∧ (cleanupExpired exStateHeld).1.hasPrevi = true)
    ∧ ((cleanupExpired exStateFree).1.previous = withEffects exStateFree exStateFree.current
      ∧ (cleanupExpired exStateFree).1.hasPrevi = true
      ∧ (cleanupExpired exStateFree).1.effects
          = exStateFree.effects.filter (fun e => !(isExpiredE e))) := by
  constructor
  · exact (cleanupExpired_preserves_snapshot exStateHeld).1 rfl
  · exact (cleanupExpired_preserves_snapshot exStateFree).2 rfl
      ⟨exEffExpired, List.mem_cons_self _ _, rfl⟩

/-- Claim C2: under the ByKey strategy with a non-empty key field, the
patch starts with the remove operations; each removed index is the
recorded old index of a key carried by the element at that index and
carried by no element of the new array, every such key's index is removed,
and the removed indices are strictly descending. -/
theorem byKey_removes_descending (cfg : ArrayConfig) (hkf : cfg.keyField ≠ "")
    (path : String) (old new : List JVal) :
    (∃ rest, diffArraysByKey path old new cfg =
        (removedIdx cfg.keyField old new).map (fun i => mkRemove (path ++ "/" ++ toString i))
          ++ rest)
    ∧ (removedIdx cfg.keyField old new).Pairwise (· > ·)
    ∧ (∀ i ∈ removedIdx cfg.keyField old new, ∃ k,
        lookupA (buildIdx cfg.keyField old) k = some i
          ∧ getKeyF cfg.keyField (getJ old i) = some k
          ∧ ∀ v ∈ new, getKeyF cfg.keyField v ≠ some k)
    ∧ (∀ k i, lookupA (buildIdx cfg.keyField old) k = some i →
        lookupA (buildIdx cfg.keyField new) k = none →
        i ∈ removedIdx cfg.keyField old new) := by
  refine ⟨⟨byKeyGo path cfg old (buildIdx cfg.keyField old) 0 new, ?_⟩,
    removedIdx_pairwise_gt _ _ _, ?_, ?_⟩
  · rw [diffArraysByKey, if_neg hkf]
  · intro i hi
    obtain ⟨k, hmem, hnone⟩ := (mem_removedIdx_iff _ _ _ _).mp hi
    exact ⟨k, mem_lookupA_of_nodup (buildIdx_keys_nodup _ _) hmem,
      (buildIdx_sound hmem).2, (lookupA_buildIdx_none_iff _ _ _).mp hnone⟩
  · intro k i hsome hnone
    exact (mem_removedIdx_iff _ _ _ _).mpr ⟨k, lookupA_some_mem hsome, hnone⟩

theorem byKey_removes_descending_witness :
    exCfgByKey.keyField ≠ ""
    ∧ removedIdx "id" exOldIds exNewIds = [2, 0]
    ∧ (removedIdx "id" exOldIds exNewIds).Pairwise (· > ·)
    ∧ diffArraysByKey "" exOldIds exNewIds exCfgByKey = [mkRemove "/2", mkRemove "/0"] := by
  have h := byKey_removes_descending exCfgByKey (by decide) "" exOldIds exNewIds
  refine ⟨by decide, ?_, h.2.1, ?_⟩
  · simp [removedIdx, buildIdx, buildIdxGo, putIdx, getKeyF, jSprint, lookupA,
      exOldIds, exNewIds, sortNatDesc, List.insertionSort, List.orderedInsert, natGe]
  · simp [diffArraysByKey, byKeyGo, diffValues, diffMaps, mapsRC, mapsAdds, exCfgByKey,
      removedIdx, buildIdx, buildIdxGo, putIdx, getKeyF, jSprint, lookupA, lookupD, getJ,
      keysOf, sortNatDesc, sortStr, List.insertionSort, List.orderedInsert, jeq, jeqObj,
      jeqArr, kindOf, escapePtr, escapePtrChar, mkRemove, mkReplace, sLe, natGe, strLe,
      chLe, diffArrays, exOldIds, exNewIds]
    decide

/-- Claim C3: under the ByKey strategy the patch after the removes walks
the new array in order: a keyed element whose key was recorded for the old
array is diffed recursively at its index in the new array, and a keyed
element whose key was not recorded is appended with the append-to-end
path suffix. -/
theorem byKey_new_index_paths (cfg : ArrayConfig) (hkf : cfg.keyField ≠ "")
    (path : String) (old new : List JVal) :
    diffArraysByKey path old new cfg =
      (removedIdx cfg.keyField old new).map (fun i => mkRemove (path ++ "/" ++ toString i))
        ++ (enumL new).flatMap (fun p =>
            match getKeyF cfg.keyField p.2 with
            | none => []
            | some k =>
              match lookupA (buildIdx cfg.keyField old) k with
              | none => [mkAdd (path ++ "/-") p.2]
              | some oi => diffValues (path ++ "/" ++ toString p.1) (getJ old oi) p.2 cfg) := by
  rw [diffArraysByKey, if_neg hkf, byKeyGo_eq_flatMap, enumL]

theorem byKey_new_index_paths_witness :
    exCfgByKey.keyField ≠ ""
    ∧ diffArraysByKey "/items" exOldItems exNewItems exCfgByKey
        = [mkRemove "/items/1", mkReplace "/items/1/data" (.num 999)] := by
  refine ⟨by decide,
    (byKey_new_index_paths exCfgByKey (by decide) "/items" exOldItems exNewItems).trans ?_⟩
  simp [byKeyGo, diffValues, diffMaps, mapsRC, mapsAdds, exCfgByKey,
    removedIdx, buildIdx, buildIdxGo, putIdx, getKeyF, jSprint, lookupA, lookupD, getJ,
    keysOf, sortNatDesc, sortStr, List.insertionSort, List.orderedInsert, jeq, jeqObj,
    jeqArr, kindOf, escapePtr, escapePtrChar, mkRemove, mkReplace, mkAdd, sLe, natGe,
    strLe, chLe, diffArrays, exOldItems, exNewItems, enumL, enumFrom]
  decide

/-- Claim C4 counterexample: a value of a state type whose JSON form is
not an object — a bare number — makes the self-diff error rather than
produce the empty patch. -/
theorem calcDiff_self_num_errors :
    calcDiff (.num 3) (.num 3) cfgDefault = .error "unmarshal old state" := rfl

/-- Claim C4 (amended): for every value whose JSON serialization
unmarshals into a string-keyed map — a top-level object, or null, which
unmarshals as a nil map — and every array configuration, diffing the value
against itself yields the empty patch with no error.  For other top-level
kinds `calcDiff` returns an unmarshal error instead. -/
theorem calcDiff_self_empty (v : JVal) (cfg : ArrayConfig) (m : List (String × JVal))
    (h : unmarshalMap v = some m) : calcDiff v v cfg = .ok [] := by
  simp only [calcDiff, h]
  rw [diffMaps_self]

theorem calcDiff_self_empty_witness :
    unmarshalMap exObjState = some [("name", .str "a"), ("value", .num 1)]
    ∧ calcDiff exObjState exObjState cfgDefault = .ok [] :=
  ⟨rfl, calcDiff_self_empty exObjState cfgDefault _ rfl⟩

/-- Claim C5: `diffMaps` emits, first, one batch per key of the old object
in sorted key order — a remove when the key is gone, the recursive diff
when it is kept — and then an add per new-only key in sorted key order. -/
theorem diffMaps_emission_order (path : String) (old new : List (String × JVal))
    (cfg : ArrayConfig) :
    (diffMaps path old new cfg =
      (sortStr (keysOf old)).flatMap (fun k =>
        match lookupA new k with
        | none => [mkRemove (path ++ "/" ++ escapePtr k)]
        | some nv => diffValues (path ++ "/" ++ escapePtr k) (lookupD old k) nv cfg)
      ++ ((sortStr (keysOf new)).filter (fun k => (lookupA old k).isNone)).map
          (fun k => mkAdd (path ++ "/" ++ escapePtr k) (lookupD new k)))
    ∧ (sortStr (keysOf old)).Pairwise sLe
    ∧ (sortStr (keysOf old)).Perm (keysOf old)
    ∧ (sortStr (keysOf new)).Pairwise sLe
    ∧ (sortStr (keysOf new)).Perm (keysOf new) := by
  refine ⟨?_, sortStr_sorted _, sortStr_perm _, sortStr_sorted _, sortStr_perm _⟩
  rw [diffMaps, mapsRC_eq_flatMap, mapsAdds]

/-- Claim C6: a `TimedEffect` whose `TimeFunc` is nil skips every time
check regardless of its start and expiry times: it reports active and
started, not expired, zero remaining and zero until-start, and `Apply`
invokes the wrapped function unconditionally. -/
theorem timedEffect_nil_timeFunc {T A : Type} (e : TimedEffectModel T A)
    (h : e.timeFunc = none) :
    teActive e = true ∧ teStarted e = true ∧ teExpired e = false
      ∧ teRemaining e = 0 ∧ teUntilStart e = 0
      ∧ ∀ (s : T) (activator : A), teApply e s activator = e.fn s activator := by
  unfold teActive teStarted teExpired teRemaining teUntilStart teApply
  rw [h]
  simp

theorem timedEffect_nil_timeFunc_witness :
    exTimed.timeFunc = none
    ∧ teActive exTimed = true ∧ teStarted exTimed = true ∧ teExpired exTimed = false
    ∧ teRemaining exTimed = 0 ∧ teUntilStart exTimed = 0
    ∧ teApply exTimed 1 () = exTimed.fn 1 () := by
  have h := timedEffect_nil_timeFunc exTimed rfl
  exact ⟨rfl, h.1, h.2.1, h.2.2.1, h.2.2.2.1, h.2.2.2.2.1, h.2.2.2.2.2 1 ()⟩

/-- Claim C7: adding an effect whose ID duplicates one already present
returns an error and leaves the state exactly as it was — same effect
list, same snapshot, same `hasPrevious` flag. -/
theorem addEffect_duplicate_unchanged {T : Type} (s : StateModel T) (e : EffectModel T)
    (h : ∃ x ∈ s.effects, x.id = e.id) :
    (addEffect s e).1 = s ∧ (addEffect s e).2.isSome = true := by
  have hb : s.effects.any (fun x => x.id == e.id) = true :=
    List.any_eq_true.mpr (by obtain ⟨x, hx, he⟩ := h; exact ⟨x, hx, by simp [he]⟩)
  unfold addEffect
  simp [hb]

theorem addEffect_duplicate_unchanged_witness :
    (∃ x ∈ exStateHeld.effects, x.id = exEffDup.id)
    ∧ (addEffect exStateHeld exEffDup).1 = exStateHeld
    ∧ (addEffect exStateHeld exEffDup).2.isSome = true := by
  have hmem : ∃ x ∈ exStateHeld.effects, x.id = exEffDup.id :=
    ⟨exEffExpired, List.mem_cons_self _ _, rfl⟩
  exact ⟨hmem, (addEffect_duplicate_unchanged _ _ hmem).1,
    (addEffect_duplicate_unchanged _ _ hmem).2⟩

/-- Claim C8: `Broadcast` returns nil when no snapshot is held; any two
connected clients with a nil projection are assigned identical patch
bytes; and a client whose computed patch is empty is left out of the
returned map. -/
theorem broadcast_properties {ID : Type} [DecidableEq ID] (sess : SessionModel ID) :
    (sess.state.hasPrevi = false → broadcast sess = none)
    ∧ ((sess.clients.map Prod.fst).Nodup →
        ∀ c1 c2, (c1, (none : Option (JVal → JVal))) ∈ sess.clients →
          (c2, (none : Option (JVal → JVal))) ∈ sess.clients →
          lookupRes (broadcast sess) c1 = lookupRes (broadcast sess) c2)
    ∧ ((sess.clients.map Prod.fst).Nodup →
        ∀ c proj, (c, proj) ∈ sess.clients →
          stateDiffJ sess.state proj = .ok [] →
          lookupRes (broadcast sess) c = none) := by
  refine ⟨?_, ?_, ?_⟩
  · intro h
    unfold broadcast
    simp [h]
  · intro hnd c1 c2 h1 h2
    by_cases hp : sess.state.hasPrevi = false
    · have hb : broadcast sess = none := by unfold broadcast; simp [hp]
      rw [hb]
      rfl
    · have hb : broadcast sess = some (broadcastGo sess.state sess.clients) := by
        unfold broadcast; simp [hp]
      rw [hb]
      show lookupAssoc (broadcastGo sess.state sess.clients) c1
        = lookupAssoc (broadcastGo sess.state sess.clients) c2
      rw [broadcastGo_lookup sess.state sess.clients c1 none hnd h1,
        broadcastGo_lookup sess.state sess.clients c2 none hnd h2]
  · intro hnd c proj hmem hdiff
    by_cases hp : sess.state.hasPrevi = false
    · have hb : broadcast sess = none := by unfold broadcast; simp [hp]
      rw [hb]
      rfl
    · have hb : broadcast sess = some (broadcastGo sess.state sess.clients) := by
        unfold broadcast; simp [hp]
      rw [hb]
      simp only [lookupRes]
      rw [broadcastGo_lookup sess.state sess.clients c proj hnd hmem]
      cases proj with
      | none => simp [clientData, fullDataJ, hdiff]
      | some f => simp [clientData, hdiff]

theorem broadcast_properties_witness :
    (exSessGood.clients.map Prod.fst).Nodup
    ∧ lookupRes (broadcast exSessGood) "a" = some exPatchBytes
    ∧ lookupRes (broadcast exSessGood) "a" = lookupRes (broadcast exSessGood) "b" := by
  refine ⟨by decide, ?_, ?_⟩
  · simp [lookupRes, lookupAssoc, broadcast, broadcastGo, clientData, fullDataJ,
      stateDiffJ, applyProj, withEffectsJ, calcDiff, unmarshalMap, diffMaps, mapsRC,
      mapsAdds, sortStr, keysOf, lookupA, lookupD, diffValues, jeq, jeqObj, kindOf,
      List.insertionSort, List.orderedInsert, sLe, strLe, chLe, escapePtr, escapePtrChar,
      renderPatch, renderOp, renderJ, escJSON, escChar, exSessGood, exStateJGood,
      cfgDefault, exPatchBytes, mkReplace, String.intercalate]
    decide
  · exact (broadcast_properties exSessGood).2.1 (by decide) "a" "b"
      (List.mem_cons_self _ _) (List.mem_cons_of_mem _ (List.mem_cons_self _ _))

/-- Claim C9 counterexample: JSON null is listed by the claim as erroring,
but `json.Unmarshal` of null into a map succeeds with a nil map, so the
self-diff of a null-serializing value succeeds with an empty patch. -/
theorem calcDiff_null_ok : calcDiff .null .null cfgDefault = .ok [] := by
  have h : diffMaps "" [] [] cfgDefault = [] := diffMaps_self "" [] cfgDefault
  simp [calcDiff, unmarshalMap, h]

/-- Claim C9 (amended): for every pair of values either of whose JSON
serializations is neither an object nor null at top level (a bare array,
number, string or boolean), `calcDiff` returns an error — and `State.Diff`
propagates it whenever a previous snapshot exists — even when the values
are equal; null, however, unmarshals as a nil map and succeeds. -/
theorem calcDiff_nonobject_error (old new : JVal) (cfg : ArrayConfig) (st : StateJ)
    (proj : Option (JVal → JVal)) :
    (unmarshalMap old = none ∨ unmarshalMap new = none →
      ∃ msg, calcDiff old new cfg = .error msg)
    ∧ (st.hasPrevi = true → unmarshalMap (applyProj proj st.previous) = none →
      ∃ msg, stateDiffJ st proj = .error msg) := by
  constructor
  · rintro (h | h)
    · exact ⟨"unmarshal old state", by simp [calcDiff, h]⟩
    · cases ho : unmarshalMap old with
      | none => exact ⟨"unmarshal old state", by simp [calcDiff, ho]⟩
      | some o => exact ⟨"unmarshal new state", by simp [calcDiff, ho, h]⟩
  · intro hp h
    refine ⟨"unmarshal old state", ?_⟩
    unfold stateDiffJ
    rw [if_neg (by simp [hp])]
    simp [calcDiff, h]

theorem calcDiff_nonobject_error_witness :
    unmarshalMap (.arr []) = none
    ∧ (∃ msg, calcDiff (.arr []) (.arr []) cfgDefault = .error msg)
    ∧ exStateJBad.hasPrevi = true
    ∧ unmarshalMap (applyProj none exStateJBad.previous) = none
    ∧ (∃ msg, stateDiffJ exStateJBad none = .error msg) :=
  ⟨rfl,
    (calcDiff_nonobject_error (.arr []) (.arr []) cfgDefault exStateJBad none).1 (Or.inl rfl),
    rfl, rfl,
    (calcDiff_nonobject_error (.arr []) (.arr []) cfgDefault exStateJBad none).2 rfl rfl⟩

/-- Claim C10: when computing a client's diff fails, `Broadcast` silently
leaves that client out of the returned map — its signature has no error
channel, so the error is not reported; instantiated at a nil projection
this covers every nil-projection client at once, since they all share the
one cached diff. -/
theorem broadcast_error_omits_client {ID : Type} [DecidableEq ID] (sess : SessionModel ID)
    (c : ID) (proj : Option (JVal → JVal)) (msg : String)
    (hnd : (sess.clients.map Prod.fst).Nodup)
    (hmem : (c, proj) ∈ sess.clients)
    (herr : stateDiffJ sess.state proj = .error msg) :
    lookupRes (broadcast sess) c = none := by
  by_cases hp : sess.state.hasPrevi = false
  · have hb : broadcast sess = none := by unfold broadcast; simp [hp]
    rw [hb]
    rfl
  · have hb : broadcast sess = some (broadcastGo sess.state sess.clients) := by
      unfold broadcast; simp [hp]
    rw [hb]
    simp only [lookupRes]
    rw [broadcastGo_lookup sess.state sess.clients c proj hnd hmem]
    cases proj with
    | none => simp [clientData, fullDataJ, herr]
    | some f => simp [clientData, herr]

theorem broadcast_error_omits_client_witness :
    (exSessBad.clients.map Prod.fst).Nodup
    ∧ stateDiffJ exSessBad.state none = .error "unmarshal old state"
    ∧ lookupRes (broadcast exSessBad) "a" = none
    ∧ lookupRes (broadcast exSessBad) "b" = none := by
  have herr : stateDiffJ exSessBad.state none = .error "unmarshal old state" := rfl
  exact ⟨by decide, herr,
    broadcast_error_omits_client exSessBad "a" none _ (by decide)
      (List.mem_cons_self _ _) herr,
    broadcast_error_omits_client exSessBad "b" none _ (by decide)
      (List.mem_cons_of_mem _ (List.mem_cons_self _ _)) herr⟩
